import Mathlib

/-!
Verification of the core logic of the VSCode extension cleanup tool
(`clean_vsc_exts.py`): name decoding, version comparison, grouping,
selection policy and the reconciliation loop.

Python strings are modelled as `List Char`; `str.split(sep)` and
`sep.join(...)` as `splitOnChar`/`joinWith`; machine behaviour that can
raise (`parts[-1][0]` on an empty string raises IndexError) is modelled
with `Option`.
-/

/-- Character list of a string literal (model of a Python `str` value). -/
def chars (s : String) : List Char := s.data

/-- `part and part[0].isdigit()`: a (possibly empty) string begins with a
decimal digit. Empty strings are falsy in Python, hence `false` here. -/
def startsWithDigit : List Char → Bool
  | [] => false
  | c :: _ => c.isDigit

/-- Python `s.split(sep)` for a one-character separator: always returns at
least one (possibly empty) segment; `"".split(sep) = [""]`. -/
def splitOnChar (sep : Char) : List Char → List (List Char)
  | [] => [[]]
  | c :: rest =>
      if c = sep then [] :: splitOnChar sep rest
      else
        match splitOnChar sep rest with
        | [] => [[c]]
        | p :: ps => (c :: p) :: ps

/-- Python `sep.join(segments)` for a one-character separator. -/
def joinWith (sep : Char) : List (List Char) → List Char
  | [] => []
  | [p] => p
  | p :: ps => p ++ sep :: joinWith sep ps

/-- Python `s.lstrip(sep)` for a one-character argument: drop every leading
occurrence of the character. -/
def lstripChar (sep : Char) (s : List Char) : List Char :=
  s.dropWhile (fun c => c = sep)

/-- `extract_base_name`'s scan over `parts`: the first segment is always
kept; subsequent segments are kept while they do not begin with a digit
(`if i == 0: append; elif part and part[0].isdigit(): break; else: append`). -/
def baseParts : List (List Char) → List (List Char)
  | [] => []
  | p :: rest => p :: rest.takeWhile (fun q => !startsWithDigit q)

/-- `extract_base_name(extension_dir_name)` from `clean_vsc_exts.py`:
split on `'-'`; a single segment is returned whole; otherwise rejoin the
initial segments up to (excluding) the first digit-leading one. -/
def extract_base_name (s : List Char) : List Char :=
  let parts := splitOnChar '-' s
  if parts.length ≤ 1 then s
  else joinWith '-' (baseParts parts)

/-- Second half of `extract_version_info`, from `if not remainder` on: an
empty remainder yields `("", "")`; otherwise split on `'-'` again, and with
more than one segment the last one is the architecture unless it begins
with a digit. `parts[-1][0]` on an empty last segment raises IndexError,
modelled as `none`. -/
def versionArchOf (remainder : List Char) : Option (List Char × List Char) :=
  if remainder = [] then some ([], [])
  else
    if 1 < (splitOnChar '-' remainder).length then
      match (splitOnChar '-' remainder).getLastD [] with
      | [] => none
      | c :: cs =>
          if c.isDigit then some (remainder, [])
          else some (joinWith '-' (splitOnChar '-' remainder).dropLast, c :: cs)
    else some (remainder, [])

/-- `extract_version_info(extension_dir_name)`: compute the remainder
`extension_dir_name[len(base_name):].lstrip('-')`, then decide version and
architecture from it via `versionArchOf`. -/
def extract_version_info (s : List Char) : Option (List Char × List Char) :=
  versionArchOf (lstripChar '-' (s.drop (extract_base_name s).length))

/-- The decoded identity of one installed item (spec §3 `Entry`). -/
structure Entry where
  rawName : List Char
  baseName : List Char
  version : List Char
  arch : List Char
deriving DecidableEq

/-- NameCodec `decode(rawName)`: base name plus version/arch fields, `none`
when `extract_version_info` raises. -/
def decode (s : List Char) : Option Entry :=
  match extract_version_info s with
  | none => none
  | some (v, a) => some ⟨s, extract_base_name s, v, a⟩

/-- ASCII whitespace accepted (and stripped) by Python `int(str)`. -/
def isPySpace (c : Char) : Bool :=
  c = ' ' ∨ c = '\t' ∨ c = '\n' ∨ c = '\r' ∨ c = '\x0b' ∨ c = '\x0c'

/-- Strip leading and trailing whitespace, as Python `int(str)` does before
parsing. -/
def pyStripWs (s : List Char) : List Char :=
  ((s.dropWhile isPySpace).reverse.dropWhile isPySpace).reverse

/-- Digit-run parser used by `pyInt`: after an initial digit, digits may
continue, with single underscores allowed between digits only. -/
def pyDigitsAux : List Char → Nat → Option Nat
  | [], acc => some acc
  | '_' :: c :: rest, acc =>
      if c.isDigit then pyDigitsAux rest (acc * 10 + (c.toNat - '0'.toNat))
      else none
  | ['_'], _ => none
  | c :: rest, acc =>
      if c.isDigit then pyDigitsAux rest (acc * 10 + (c.toNat - '0'.toNat))
      else none

/-- A nonempty decimal-digit run, possibly with single underscores between
digits (Python numeric-literal grouping). -/
def pyDigits : List Char → Option Nat
  | [] => none
  | c :: rest =>
      if c.isDigit then pyDigitsAux rest (c.toNat - '0'.toNat)
      else none

/-- Model of Python `int(str)` (base 10, ASCII): optional surrounding
whitespace, optional single sign, then a digit run; `none` models
`ValueError`. -/
def pyInt (s : List Char) : Option Int :=
  match pyStripWs s with
  | '+' :: rest => (pyDigits rest).map Int.ofNat
  | '-' :: rest => (pyDigits rest).map (fun n => -(n : Int))
  | rest => (pyDigits rest).map Int.ofNat

/-- Python string `<` on two values: lexicographic by code point. -/
def pyStrLt : List Char → List Char → Bool
  | [], [] => false
  | [], _ :: _ => true
  | _ :: _, [] => false
  | c1 :: r1, c2 :: r2 =>
      if c1 < c2 then true
      else if c2 < c1 then false
      else pyStrLt r1 r2

/-- One position of `compare_versions`: numeric comparison when both
segments parse as integers (`try: n1 = int(p1); n2 = int(p2)`), otherwise
Python string comparison of the raw segments. -/
def cmpSeg (p1 p2 : List Char) : Int :=
  match pyInt p1, pyInt p2 with
  | some n1, some n2 => if n1 < n2 then -1 else if n2 < n1 then 1 else 0
  | _, _ => if pyStrLt p1 p2 then -1 else if pyStrLt p2 p1 then 1 else 0

/-- `parts1[i] if i < len(parts1) else '0'`. -/
def pySeg (ps : List (List Char)) (i : Nat) : List Char :=
  if h : i < ps.length then ps.get ⟨i, h⟩ else ['0']

/-- The `for i in range(max(len(parts1), len(parts2)))` loop of
`compare_versions`: `i` is the current index, the second argument the
remaining iteration count; return at the first nonzero comparison. -/
def cmpLoop (pa pb : List (List Char)) : Nat → Nat → Int
  | _, 0 => 0
  | i, k + 1 =>
      if cmpSeg (pySeg pa i) (pySeg pb i) = 0 then cmpLoop pa pb (i + 1) k
      else cmpSeg (pySeg pa i) (pySeg pb i)

/-- `compare_versions(ver1, ver2)` from `clean_vsc_exts.py`. -/
def compare_versions (ver1 ver2 : List Char) : Int :=
  if ver1 = [] ∧ ver2 = [] then 0
  else if ver1 = [] then -1
  else if ver2 = [] then 1
  else
    let pa := splitOnChar '.' ver1
    let pb := splitOnChar '.' ver2
    cmpLoop pa pb 0 (max pa.length pb.length)

/-- The `for ext_dir in extension_dirs[1:]` loop of `find_latest_version`:
`latest` is the running best, `lv` its decoded version string; a crash in
`extract_version_info` propagates as `none`. -/
def flv_loop : List (List Char) → List Char → List Char → Option (List Char)
  | [], latest, _ => some latest
  | d :: rest, latest, lv =>
      match extract_version_info d with
      | none => none
      | some (v, _) =>
          if compare_versions v lv > 0 then flv_loop rest d v
          else if compare_versions v lv = 0 ∧ latest.length < d.length then
            flv_loop rest d v
          else flv_loop rest latest lv

/-- `find_latest_version(extension_dirs)`: a single-element list is
returned outright (no decoding, no comparison); otherwise scan with
`compare_versions`, breaking ties toward the longer raw name. -/
def find_latest_version (dirs : List (List Char)) : Option (List Char) :=
  match dirs with
  | [] => none
  | [d] => some d
  | d :: rest =>
      match extract_version_info d with
      | none => none
      | some (lv, _) => flv_loop rest d lv

/-- Per-entry outcome of the selection policy (spec §3 `Decision.action`). -/
inductive ExtAction where
  | Keep
  | RemoveUnwanted
  | RemoveOldVersion
deriving DecidableEq, BEq

/-- The reason string `main` passes to `remove_extension` for each removal
action (`"not in keep list"` / `"old version"`). -/
def reasonOf : ExtAction → List Char
  | ExtAction.Keep => []
  | ExtAction.RemoveUnwanted => chars "not in keep list"
  | ExtAction.RemoveOldVersion => chars "old version"

/-- Per-group part of `main`'s processing loop: group members in the keep
list either all survive (`--keep-all-versions`) or only the latest does;
groups outside the keep list are wholly unwanted. -/
def decideGroup (keepList : List (List Char)) (keepAll : Bool)
    (base : List Char) (dirs : List (List Char)) :
    Option (List (List Char × ExtAction)) :=
  if keepList.contains base then
    if keepAll then some (dirs.map (fun d => (d, ExtAction.Keep)))
    else
      match find_latest_version dirs with
      | none => none
      | some latest =>
          some (dirs.map (fun d =>
            (d, if d = latest then ExtAction.Keep else ExtAction.RemoveOldVersion)))
  else some (dirs.map (fun d => (d, ExtAction.RemoveUnwanted)))

/-- `defaultdict(list)` update: append to the entry with this key, or add a
fresh key at the end (Python dicts preserve key insertion order). -/
def insertGrouped :
    List (List Char × List (List Char)) → List Char → List Char →
    List (List Char × List (List Char))
  | [], k, v => [(k, [v])]
  | (k', g) :: rest, k, v =>
      if k' = k then (k', g ++ [v]) :: rest
      else (k', g) :: insertGrouped rest k v

/-- `group_extensions_by_base_name(extension_dirs)`: fold the directory
listing into an insertion-ordered map from base name to members. -/
def group_extensions_by_base_name (dirs : List (List Char)) :
    List (List Char × List (List Char)) :=
  dirs.foldl (fun acc d => insertGrouped acc (extract_base_name d) d) []

/-- `main`'s decision loop over all groups, concatenating per-entry
decisions; `none` models an uncaught exception inside a group. -/
def decideAll (keepList : List (List Char)) (keepAll : Bool) :
    List (List Char × List (List Char)) → Option (List (List Char × ExtAction))
  | [] => some []
  | g :: gs =>
      match decideGroup keepList keepAll g.1 g.2, decideAll keepList keepAll gs with
      | some d, some rest => some (d ++ rest)
      | _, _ => none

/-- The Reconciler's decision phase: group the inventory, then decide every
entry of every group. -/
def reconcile (inv : List (List Char)) (keepList : List (List Char))
    (keepAll : Bool) : Option (List (List Char × ExtAction)) :=
  decideAll keepList keepAll (group_extensions_by_base_name inv)

/-- Names decided `Keep`: the inventory that survives a fully successful
non-dry run. -/
def keptNames (ds : List (List Char × ExtAction)) : List (List Char) :=
  (ds.filter (fun p => decide (p.2 = ExtAction.Keep))).map Prod.fst

/-- The two removal batches of `main`, in execution order: unwanted
extensions first, then old versions. -/
def removalsOf (ds : List (List Char × ExtAction)) : List (List Char) :=
  (ds.filter (fun p => decide (p.2 = ExtAction.RemoveUnwanted))).map Prod.fst ++
    (ds.filter (fun p => decide (p.2 = ExtAction.RemoveOldVersion))).map Prod.fst

/-- `main`'s removal loops with `remove_extension`'s `try/except`: the
oracle says whether `shutil.rmtree` succeeds for a name; the result is the
attempt trace plus (`success_count`, `fail_count`). Exceptions are caught,
so the loop always continues. -/
def removalPhase (oracle : List Char → Bool) :
    List (List Char) → List (List Char × Bool) × Nat × Nat
  | [] => ([], 0, 0)
  | d :: ds =>
      ((d, oracle d) :: (removalPhase oracle ds).1,
        (if oracle d then (removalPhase oracle ds).2.1 + 1
          else (removalPhase oracle ds).2.1),
        (if oracle d then (removalPhase oracle ds).2.2
          else (removalPhase oracle ds).2.2 + 1))

/-- Strip one leading `'-'`, the spec's wording for how the remainder is
obtained from the raw name after the base name. -/
def stripOneDash : List Char → List Char
  | [] => []
  | c :: t => if c = '-' then t else c :: t

/-- Version/arch split of a remainder as the specification words it: with
more than one `'-'`-segment whose last segment does not begin with a digit,
the last segment is the architecture and the rest (rejoined) the version;
otherwise the whole remainder is the version. Total. -/
def specVersionArch (remainder : List Char) : List Char × List Char :=
  if 1 < (splitOnChar '-' remainder).length ∧
      startsWithDigit ((splitOnChar '-' remainder).getLastD []) = false then
    (joinWith '-' (splitOnChar '-' remainder).dropLast,
      (splitOnChar '-' remainder).getLastD [])
  else (remainder, [])

/-- Decoding as the specification words it (spec §4.1 / claim C1): split on
`'-'`; one segment means the whole name is the base; otherwise the base is
the first segment plus the following non-digit-leading segments, and the
remainder of the raw name after the base, one leading `'-'` stripped, is
decomposed by `specVersionArch`. Total. -/
def spec_decode (s : List Char) : Entry :=
  match splitOnChar '-' s with
  | [] => ⟨s, s, [], []⟩
  | [_] => ⟨s, s, [], []⟩
  | p :: rest =>
      let base := joinWith '-' (p :: rest.takeWhile (fun q => !startsWithDigit q))
      ⟨s, base, (specVersionArch (stripOneDash (s.drop base.length))).1,
        (specVersionArch (stripOneDash (s.drop base.length))).2⟩

/-- `parts[i]` with missing positions read as `"0"`, as the specification
words it. -/
def specSeg (ps : List (List Char)) (i : Nat) : List Char :=
  ps.getD i ['0']

/-- Version comparison as the specification words it (spec §4.2 / claim
C3): find the first position in `0..max(len,len)-1` where the padded
segments differ and return that comparison, else `0`. -/
def spec_compare (a b : List Char) : Int :=
  if a = [] ∧ b = [] then 0
  else if a = [] then -1
  else if b = [] then 1
  else
    let pa := splitOnChar '.' a
    let pb := splitOnChar '.' b
    match (List.range (max pa.length pb.length)).find?
        (fun i => !(cmpSeg (specSeg pa i) (specSeg pb i) = 0 : Bool)) with
    | some i => cmpSeg (specSeg pa i) (specSeg pb i)
    | none => 0

/-- The version string of a decoded entry (empty when decoding fails);
matches `Entry.version` whenever decoding succeeds. -/
def specVersionOf (d : List Char) : List Char :=
  match extract_version_info d with
  | some (v, _) => v
  | none => []

/-- The specification's selection scan (spec §4.4 / claim C4): the current
entry replaces the running best exactly when its version compares strictly
greater, or compares equal and its raw name is strictly longer. -/
def specScan : List (List Char) → List Char → List Char
  | [], best => best
  | d :: ds, best =>
      if 0 < compare_versions (specVersionOf d) (specVersionOf best) ∨
          (compare_versions (specVersionOf d) (specVersionOf best) = 0 ∧
            best.length < d.length) then
        specScan ds d
      else specScan ds best

/-- The "latest" member of a group per the specification's scan. -/
def specLatest : List (List Char) → List Char
  | [] => []
  | d :: ds => specScan ds d

/-- The members of one group that survive a fully successful non-dry run. -/
def survivorsG (keepList : List (List Char)) (keepAll : Bool)
    (b : List Char) (g : List (List Char)) : List (List Char) :=
  if keepList.contains b then
    if keepAll then g
    else
      match find_latest_version g with
      | some L => g.filter (fun d => decide (d = L))
      | none => []
  else []

/-- Keys of an insertion-ordered group map. -/
def gkeys (acc : List (List Char × List (List Char))) : List (List Char) :=
  acc.map Prod.fst

/-- A well-formed group: nonempty, and every member decodes to the group's
base name. -/
def goodBlock (p : List Char × List (List Char)) : Prop :=
  p.2 ≠ [] ∧ ∀ d ∈ p.2, extract_base_name d = p.1

/-- The nonempty survivor groups of a run, with their base names. -/
def sblocks (keepList : List (List Char)) (keepAll : Bool)
    (gs : List (List Char × List (List Char))) :
    List (List Char × List (List Char)) :=
  gs.filterMap (fun p =>
    let s := survivorsG keepList keepAll p.1 p.2
    if s = [] then none else some (p.1, s))

theorem joinWith_single (sep : Char) (p : List Char) : joinWith sep [p] = p := rfl

theorem joinWith_cons2 (sep : Char) (p q : List Char) (ps : List (List Char)) :
    joinWith sep (p :: q :: ps) = p ++ sep :: joinWith sep (q :: ps) := rfl

theorem splitOnChar_ne_nil (sep : Char) (s : List Char) : splitOnChar sep s ≠ [] := by
  cases s with
  | nil => simp [splitOnChar]
  | cons c t =>
    unfold splitOnChar
    split
    · simp
    · split <;> simp

theorem joinWith_splitOnChar (sep : Char) (s : List Char) :
    joinWith sep (splitOnChar sep s) = s := by
  induction s with
  | nil => rfl
  | cons c t ih =>
    unfold splitOnChar
    by_cases h : c = sep
    · subst h
      simp only [eq_self_iff_true, if_true]
      obtain ⟨p, ps, hs⟩ : ∃ p ps, splitOnChar c t = p :: ps := by
        cases hs : splitOnChar c t with
        | nil => exact absurd hs (splitOnChar_ne_nil c t)
        | cons p ps => exact ⟨p, ps, rfl⟩
      rw [hs] at ih ⊢
      rw [show joinWith c ([] :: p :: ps) = [] ++ c :: joinWith c (p :: ps) from rfl]
      simp [ih]
    · simp only [if_neg h]
      cases hs : splitOnChar sep t with
      | nil => exact absurd hs (splitOnChar_ne_nil sep t)
      | cons p ps =>
        rw [hs] at ih
        cases ps with
        | nil =>
          show joinWith sep [c :: p] = c :: t
          rw [joinWith_single] at ih ⊢
          rw [List.cons_inj_right]
          exact ih
        | cons q ps' =>
          show joinWith sep ((c :: p) :: q :: ps') = c :: t
          rw [joinWith_cons2] at ih ⊢
          simpa using ih

theorem joinWith_append (sep : Char) {xs ys : List (List Char)}
    (hx : xs ≠ []) (hy : ys ≠ []) :
    joinWith sep (xs ++ ys) = joinWith sep xs ++ sep :: joinWith sep ys := by
  induction xs with
  | nil => exact absurd rfl hx
  | cons x xs ih =>
    cases xs with
    | nil =>
      cases ys with
      | nil => exact absurd rfl hy
      | cons y ys' => simp [joinWith_single, joinWith_cons2]
    | cons x' xs'' =>
      have h1 : joinWith sep ((x :: x' :: xs'') ++ ys)
          = x ++ sep :: joinWith sep ((x' :: xs'') ++ ys) := by
        simp only [List.cons_append]
        exact joinWith_cons2 sep x x' (xs'' ++ ys)
      rw [h1, ih (by simp), joinWith_cons2]
      simp

theorem joinWith_head_ex (sep : Char) (p : List Char) (ps : List (List Char)) :
    ∃ r, joinWith sep (p :: ps) = p ++ r := by
  cases ps with
  | nil => exact ⟨[], by simp [joinWith_single]⟩
  | cons q ps' => exact ⟨sep :: joinWith sep (q :: ps'), joinWith_cons2 sep p q ps'⟩

theorem splitOnChar_cons_ne (sep c : Char) (t : List Char) (h : ¬ c = sep) :
    ∃ p ps, splitOnChar sep t = p :: ps ∧ splitOnChar sep (c :: t) = (c :: p) :: ps := by
  obtain ⟨p, ps, hs⟩ : ∃ p ps, splitOnChar sep t = p :: ps := by
    cases hs : splitOnChar sep t with
    | nil => exact absurd hs (splitOnChar_ne_nil sep t)
    | cons p ps => exact ⟨p, ps, rfl⟩
  refine ⟨p, ps, hs, ?_⟩
  unfold splitOnChar
  rw [if_neg h, hs]

theorem pyStrLt_irrefl (a : List Char) : pyStrLt a a = false := by
  induction a with
  | nil => rfl
  | cons c r ih =>
    unfold pyStrLt
    rw [if_neg (Char.lt_irrefl c)]
    rw [if_neg (Char.lt_irrefl c)]
    exact ih

theorem pyStrLt_asymm : ∀ {a b : List Char},
    pyStrLt a b = true → pyStrLt b a = false := by
  intro a
  induction a with
  | nil =>
    intro b h
    cases b with
    | nil => simp [pyStrLt] at h
    | cons c r => rfl
  | cons c1 r1 ih =>
    intro b h
    cases b with
    | nil => simp [pyStrLt] at h
    | cons c2 r2 =>
      unfold pyStrLt at h ⊢
      by_cases h12 : c1 < c2
      · rw [if_neg (Char.lt_asymm h12), if_pos h12]
      · by_cases h21 : c2 < c1
        · rw [if_neg h12, if_pos h21] at h
          exact absurd h (by simp)
        · rw [if_neg h12, if_neg h21] at h
          rw [if_neg h21, if_neg h12]
          exact ih h

theorem cmpSeg_refl (p : List Char) : cmpSeg p p = 0 := by
  unfold cmpSeg
  cases h : pyInt p with
  | none => simp [h, pyStrLt_irrefl]
  | some n => simp [h]

theorem cmpSeg_antisymm (p1 p2 : List Char) : cmpSeg p1 p2 = - cmpSeg p2 p1 := by
  unfold cmpSeg
  cases h1 : pyInt p1 with
  | some n1 =>
    cases h2 : pyInt p2 with
    | some n2 =>
      rcases lt_trichotomy n1 n2 with h | h | h
      · simp [h, asymm h]
      · subst h
        simp
      · simp [h, asymm h]
    | none =>
      by_cases l12 : pyStrLt p1 p2 = true
      · simp [l12, pyStrLt_asymm l12]
      · by_cases l21 : pyStrLt p2 p1 = true
        · simp [l12, l21, pyStrLt_asymm l21]
        · simp [l12, l21]
  | none =>
    cases h2 : pyInt p2 with
    | some n2 =>
      by_cases l12 : pyStrLt p1 p2 = true
      · simp [l12, pyStrLt_asymm l12]
      · by_cases l21 : pyStrLt p2 p1 = true
        · simp [l12, l21, pyStrLt_asymm l21]
        · simp [l12, l21]
    | none =>
      by_cases l12 : pyStrLt p1 p2 = true
      · simp [l12, pyStrLt_asymm l12]
      · by_cases l21 : pyStrLt p2 p1 = true
        · simp [l12, l21, pyStrLt_asymm l21]
        · simp [l12, l21]

theorem cmpLoop_refl (pa : List (List Char)) : ∀ k i, cmpLoop pa pa i k = 0 := by
  intro k
  induction k with
  | zero => intro i; rfl
  | succ k ih =>
    intro i
    unfold cmpLoop
    rw [if_pos (cmpSeg_refl (pySeg pa i))]
    exact ih (i + 1)

theorem cmpLoop_antisymm (pa pb : List (List Char)) :
    ∀ k i, cmpLoop pa pb i k = - cmpLoop pb pa i k := by
  intro k
  induction k with
  | zero => intro i; simp [cmpLoop]
  | succ k ih =>
    intro i
    unfold cmpLoop
    have h := cmpSeg_antisymm (pySeg pa i) (pySeg pb i)
    by_cases hz : cmpSeg (pySeg pa i) (pySeg pb i) = 0
    · have hz' : cmpSeg (pySeg pb i) (pySeg pa i) = 0 := by omega
      rw [if_pos hz, if_pos hz']
      exact ih (i + 1)
    · have hz' : ¬ cmpSeg (pySeg pb i) (pySeg pa i) = 0 := by omega
      rw [if_neg hz, if_neg hz']
      exact h

theorem compare_versions_refl (a : List Char) : compare_versions a a = 0 := by
  by_cases h : a = []
  · simp [compare_versions, h]
  · simp only [compare_versions, h, and_self, if_false]
    exact cmpLoop_refl _ _ 0

theorem compare_versions_antisymm (a b : List Char) :
    compare_versions a b = - compare_versions b a := by
  by_cases ha : a = []
  · by_cases hb : b = []
    · simp [compare_versions, ha, hb]
    · simp [compare_versions, ha, hb]
  · by_cases hb : b = []
    · simp [compare_versions, ha, hb]
    · simp only [compare_versions, ha, hb, and_self, and_false, false_and,
        if_false]
      rw [Nat.max_comm]
      exact cmpLoop_antisymm _ _ _ 0

theorem pySeg_eq_specSeg : ∀ (ps : List (List Char)) (i : Nat),
    pySeg ps i = specSeg ps i := by
  intro ps
  induction ps with
  | nil =>
    intro i
    simp [pySeg, specSeg]
  | cons p ps ih =>
    intro i
    cases i with
    | zero => simp [pySeg, specSeg]
    | succ i =>
      have hs : specSeg (p :: ps) (i + 1) = specSeg ps i := rfl
      rw [hs, ← ih i]
      unfold pySeg
      by_cases h : i < ps.length
      · rw [dif_pos h, dif_pos (by simpa using Nat.succ_lt_succ h)]
        rfl
      · rw [dif_neg h, dif_neg (by simpa using h)]

theorem cmpLoop_eq_find (pa pb : List (List Char)) :
    ∀ k i, cmpLoop pa pb i k =
      match (List.range' i k).find?
          (fun j => !(cmpSeg (specSeg pa j) (specSeg pb j) = 0 : Bool)) with
      | some j => cmpSeg (specSeg pa j) (specSeg pb j)
      | none => 0 := by
  intro k
  induction k with
  | zero => intro i; rfl
  | succ k ih =>
    intro i
    have hr : List.range' i (k + 1) = i :: List.range' (i + 1) k := rfl
    unfold cmpLoop
    rw [pySeg_eq_specSeg, pySeg_eq_specSeg]
    by_cases hz : cmpSeg (specSeg pa i) (specSeg pb i) = 0
    · rw [if_pos hz, ih (i + 1), hr,
        List.find?_cons_of_neg _ (by simp [hz])]
    · rw [if_neg hz, hr, List.find?_cons_of_pos _ (by simp [hz])]

theorem compare_versions_eq_spec (a b : List Char) :
    compare_versions a b = spec_compare a b := by
  by_cases ha : a = []
  · by_cases hb : b = [] <;> simp [compare_versions, spec_compare, ha, hb]
  · by_cases hb : b = []
    · simp [compare_versions, spec_compare, ha, hb]
    · simp only [compare_versions, spec_compare, ha, hb, and_self, and_false,
        false_and, if_false]
      rw [cmpLoop_eq_find, List.range_eq_range']

theorem splitOnChar_exists (sep : Char) (s : List Char) :
    ∃ p ps, splitOnChar sep s = p :: ps := by
  cases hs : splitOnChar sep s with
  | nil => exact absurd hs (splitOnChar_ne_nil sep s)
  | cons p ps => exact ⟨p, ps, rfl⟩

theorem dropWhile_head_false {α : Type} {P : α → Bool} :
    ∀ {l : List α} {q : α} {qs : List α}, l.dropWhile P = q :: qs → P q = false := by
  intro l
  induction l with
  | nil => intro q qs h; simp [List.dropWhile] at h
  | cons x xs ih =>
    intro q qs h
    by_cases hx : P x = true
    · rw [List.dropWhile_cons_of_pos hx] at h
      exact ih h
    · rw [List.dropWhile_cons_of_neg hx] at h
      cases h
      simpa using hx

theorem extract_base_name_eq (s : List Char) :
    extract_base_name s = joinWith '-' (baseParts (splitOnChar '-' s)) := by
  simp only [extract_base_name]
  by_cases h : (splitOnChar '-' s).length ≤ 1
  · rw [if_pos h]
    obtain ⟨p, ps, hs⟩ := splitOnChar_exists '-' s
    have hps : ps = [] := by
      rw [hs] at h
      simpa using h
    subst hps
    rw [hs]
    have hb : baseParts [p] = [p] := by simp [baseParts]
    rw [hb, joinWith_single]
    conv_lhs => rw [← joinWith_splitOnChar '-' s, hs, joinWith_single]
  · rw [if_neg h]

theorem extract_base_name_single (s : List Char) (p : List Char)
    (hs : splitOnChar '-' s = [p]) : extract_base_name s = s := by
  simp only [extract_base_name]
  rw [if_pos (by rw [hs]; simp)]

theorem extract_base_name_cons2 (s : List Char) (p q : List Char)
    (rest : List (List Char)) (hs : splitOnChar '-' s = p :: q :: rest) :
    extract_base_name s =
      joinWith '-' (p :: (q :: rest).takeWhile (fun x => !startsWithDigit x)) := by
  rw [extract_base_name_eq, hs]
  rfl

theorem drop_base (s : List Char) :
    s.drop (extract_base_name s).length = [] ∨
    ∃ c t, c.isDigit = true ∧
      s.drop (extract_base_name s).length = '-' :: c :: t := by
  obtain ⟨p, rest, hs⟩ := splitOnChar_exists '-' s
  have hjoin : joinWith '-' (p :: rest) = s := by
    rw [← hs]
    exact joinWith_splitOnChar '-' s
  have hbase : extract_base_name s
      = joinWith '-' (p :: rest.takeWhile (fun q => !startsWithDigit q)) := by
    rw [extract_base_name_eq, hs]
    rfl
  cases hdr : rest.dropWhile (fun q => !startsWithDigit q) with
  | nil =>
    left
    have htk : rest.takeWhile (fun q => !startsWithDigit q) = rest := by
      have h2 := List.takeWhile_append_dropWhile
        (p := fun q => !startsWithDigit q) (l := rest)
      rw [hdr] at h2
      simpa using h2
    rw [hbase, htk, hjoin]
    exact List.drop_length s
  | cons q dr' =>
    right
    have hPq : (!startsWithDigit q) = false :=
      dropWhile_head_false (P := fun q => !startsWithDigit q) hdr
    have hq : startsWithDigit q = true := by simpa using hPq
    obtain ⟨c, q', hqc⟩ : ∃ c q', q = c :: q' := by
      cases q with
      | nil => simp [startsWithDigit] at hq
      | cons c q' => exact ⟨c, q', rfl⟩
    have hcd : c.isDigit = true := by
      rw [hqc] at hq
      simpa [startsWithDigit] using hq
    have hsplit_rest : rest
        = rest.takeWhile (fun q => !startsWithDigit q) ++ q :: dr' := by
      conv_lhs => rw [← List.takeWhile_append_dropWhile
        (p := fun q => !startsWithDigit q) (l := rest), hdr]
    have hsplit : s = extract_base_name s ++ '-' :: joinWith '-' (q :: dr') := by
      rw [hbase, ← hjoin]
      conv_lhs => rw [hsplit_rest]
      rw [show p :: (rest.takeWhile (fun q => !startsWithDigit q) ++ q :: dr')
          = (p :: rest.takeWhile (fun q => !startsWithDigit q)) ++ q :: dr'
          from rfl]
      exact joinWith_append '-' (by simp) (by simp)
    obtain ⟨r, hjr⟩ := joinWith_head_ex '-' q dr'
    refine ⟨c, q' ++ r, hcd, ?_⟩
    set B := extract_base_name s with hB
    rw [hsplit, List.drop_left, hjr, hqc]
    rfl

theorem lstrip_eq_stripOne (s : List Char) :
    lstripChar '-' (s.drop (extract_base_name s).length) =
      stripOneDash (s.drop (extract_base_name s).length) := by
  rcases drop_base s with h | ⟨c, t, hc, h⟩
  · rw [h]
    rfl
  · rw [h]
    have hcne : ¬ c = '-' := by
      intro he
      rw [he] at hc
      exact absurd hc (by decide)
    show List.dropWhile _ _ = _
    rw [List.dropWhile_cons_of_pos (by simp),
      List.dropWhile_cons_of_neg (by simpa using hcne)]
    simp [stripOneDash]

theorem versionArchOf_eq_spec (r : List Char)
    (h : (versionArchOf r).isSome = true) :
    versionArchOf r = some (specVersionArch r) := by
  by_cases hr : r = []
  · subst hr
    rfl
  · simp only [versionArchOf, specVersionArch, hr, if_false]
    by_cases hlen : 1 < (splitOnChar '-' r).length
    · rw [if_pos hlen]
      cases hlast : (splitOnChar '-' r).getLastD [] with
      | nil =>
        exfalso
        have hnone : versionArchOf r = none := by
          simp only [versionArchOf, hr, if_false]
          rw [if_pos hlen, hlast]
        rw [hnone] at h
        simp at h
      | cons c cs =>
        by_cases hdig : c.isDigit = true
        · simp [hdig, startsWithDigit]
        · simp [hdig, startsWithDigit, hlen]
    · rw [if_neg hlen, if_neg]
      intro hc
      exact hlen hc.1

theorem decode_eq_spec (s : List Char)
    (h : (extract_version_info s).isSome = true) :
    decode s = some (spec_decode s) := by
  have hstrip : stripOneDash (s.drop (extract_base_name s).length)
      = lstripChar '-' (s.drop (extract_base_name s).length) :=
    (lstrip_eq_stripOne s).symm
  have hva : extract_version_info s
      = some (specVersionArch
          (lstripChar '-' (s.drop (extract_base_name s).length))) :=
    versionArchOf_eq_spec _ h
  obtain ⟨p, ps, hs⟩ := splitOnChar_exists '-' s
  cases ps with
  | nil =>
    have hb := extract_base_name_single s p hs
    have hrem : lstripChar '-' (s.drop (extract_base_name s).length) = [] := by
      rw [hb, List.drop_length]
      rfl
    simp only [decode, hva, hrem]
    simp only [spec_decode, hs]
    rw [hb]
    rfl
  | cons q rest =>
    have hb := extract_base_name_cons2 s p q rest hs
    simp only [decode, hva]
    simp only [spec_decode, hs]
    rw [← hb, hstrip]

theorem takeWhile_all {α : Type} {P : α → Bool} :
    ∀ (l : List α), l.all P = true → l.takeWhile P = l := by
  intro l hl
  induction l with
  | nil => rfl
  | cons x xs ih =>
    simp only [List.all_cons, Bool.and_eq_true] at hl
    rw [List.takeWhile_cons_of_pos hl.1, ih hl.2]

theorem extract_base_name_full (s : List Char)
    (h : (splitOnChar '-' s).tail.all (fun p => !startsWithDigit p) = true) :
    extract_base_name s = s := by
  obtain ⟨p, rest, hs⟩ := splitOnChar_exists '-' s
  rw [hs] at h
  rw [extract_base_name_eq, hs]
  have htk : rest.takeWhile (fun q => !startsWithDigit q) = rest :=
    takeWhile_all rest (by simpa using h)
  rw [show baseParts (p :: rest)
      = p :: rest.takeWhile (fun q => !startsWithDigit q) from rfl, htk]
  rw [← hs]
  exact joinWith_splitOnChar '-' s

theorem extract_base_name_ne_nil (s : List Char) (hne : s ≠ [])
    (hh : s.head? ≠ some '-') : extract_base_name s ≠ [] := by
  obtain ⟨c, t, rfl⟩ : ∃ c t, s = c :: t := by
    cases s with
    | nil => exact absurd rfl hne
    | cons c t => exact ⟨c, t, rfl⟩
  have hc : ¬ c = '-' := by
    intro he
    rw [he] at hh
    exact hh rfl
  obtain ⟨p, ps, hsp, hsc⟩ := splitOnChar_cons_ne '-' c t hc
  rw [extract_base_name_eq, hsc]
  obtain ⟨r, hr⟩ :=
    joinWith_head_ex '-' (c :: p) (ps.takeWhile (fun q => !startsWithDigit q))
  rw [show baseParts ((c :: p) :: ps)
      = (c :: p) :: ps.takeWhile (fun q => !startsWithDigit q) from rfl, hr]
  simp

theorem specVersionOf_eq (d : List Char) {v a : List Char}
    (h : extract_version_info d = some (v, a)) : specVersionOf d = v := by
  simp [specVersionOf, h]

theorem evi_isSome_exists {d : List Char}
    (h : (extract_version_info d).isSome = true) :
    ∃ v a, extract_version_info d = some (v, a) := by
  cases hx : extract_version_info d with
  | none =>
    rw [hx] at h
    simp at h
  | some va =>
    obtain ⟨v, a⟩ := va
    exact ⟨v, a, rfl⟩

theorem flv_loop_eq_spec : ∀ (rest : List (List Char)) (latest : List Char),
    (∀ x ∈ rest, (extract_version_info x).isSome = true) →
    flv_loop rest latest (specVersionOf latest) = some (specScan rest latest) := by
  intro rest
  induction rest with
  | nil => intro latest h; rfl
  | cons d rs ih =>
    intro latest h
    obtain ⟨v, a, hva⟩ := evi_isSome_exists (h d (by simp))
    have hrs : ∀ x ∈ rs, (extract_version_info x).isSome = true :=
      fun x hx => h x (by simp [hx])
    have hv : v = specVersionOf d := (specVersionOf_eq d hva).symm
    subst hv
    simp only [flv_loop, hva]
    have hspec : specScan (d :: rs) latest =
        if 0 < compare_versions (specVersionOf d) (specVersionOf latest) ∨
            (compare_versions (specVersionOf d) (specVersionOf latest) = 0 ∧
              latest.length < d.length) then
          specScan rs d
        else specScan rs latest := rfl
    rw [hspec]
    by_cases h1 :
        compare_versions (specVersionOf d) (specVersionOf latest) > 0
    · rw [if_pos h1, if_pos (Or.inl h1)]
      exact ih d hrs
    · rw [if_neg h1]
      by_cases h2 :
          compare_versions (specVersionOf d) (specVersionOf latest) = 0 ∧
            latest.length < d.length
      · rw [if_pos h2, if_pos (Or.inr h2)]
        exact ih d hrs
      · rw [if_neg h2, if_neg (by
          intro hc
          rcases hc with hc | hc
          · exact h1 hc
          · exact h2 hc)]
        exact ih latest hrs

theorem find_latest_eq_spec (g : List (List Char)) (hne : g ≠ [])
    (h : ∀ x ∈ g, (extract_version_info x).isSome = true) :
    find_latest_version g = some (specLatest g) := by
  cases g with
  | nil => exact absurd rfl hne
  | cons d rest =>
    cases rest with
    | nil => rfl
    | cons e rest' =>
      obtain ⟨v, a, hva⟩ := evi_isSome_exists (h d (by simp))
      simp only [find_latest_version, hva]
      have hv := specVersionOf_eq d hva
      rw [← hv]
      exact flv_loop_eq_spec (e :: rest') d
        (fun x hx => h x (by simp at hx ⊢; tauto))

theorem decideGroup_keep_latest (keepList : List (List Char)) (b : List Char)
    (g : List (List Char)) (hk : keepList.contains b = true) (hne : g ≠ [])
    (h : ∀ x ∈ g, (extract_version_info x).isSome = true) :
    decideGroup keepList false b g =
      some (g.map (fun d =>
        (d, if d = specLatest g then ExtAction.Keep
            else ExtAction.RemoveOldVersion))) := by
  unfold decideGroup
  rw [if_pos hk, if_neg (by simp), find_latest_eq_spec g hne h]

theorem decideGroup_singleton (keepList : List (List Char)) (kAll : Bool)
    (b d : List Char) (hk : keepList.contains b = true) :
    decideGroup keepList kAll b [d] = some [(d, ExtAction.Keep)] := by
  unfold decideGroup
  rw [if_pos hk]
  cases kAll with
  | true => rfl
  | false =>
    rw [if_neg (by simp), show find_latest_version [d] = some d from rfl]
    simp

theorem insertGrouped_not_mem (acc : List (List Char × List (List Char)))
    (k v : List Char) (h : ¬ k ∈ gkeys acc) :
    insertGrouped acc k v = acc ++ [(k, [v])] := by
  induction acc with
  | nil => rfl
  | cons p rest ih =>
    obtain ⟨k', g⟩ := p
    have hk : ¬ k' = k := by
      intro he
      exact h (by simp [gkeys, he])
    simp only [insertGrouped, hk, if_false]
    rw [ih (fun hm => h (by simp [gkeys] at hm ⊢; tauto))]
    simp

theorem insertGrouped_last (acc : List (List Char × List (List Char)))
    (b v : List Char) (g : List (List Char)) (h : ¬ b ∈ gkeys acc) :
    insertGrouped (acc ++ [(b, g)]) b v = acc ++ [(b, g ++ [v])] := by
  induction acc with
  | nil => simp [insertGrouped]
  | cons p rest ih =>
    obtain ⟨k', g'⟩ := p
    have hk : ¬ k' = b := by
      intro he
      exact h (by simp [gkeys, he])
    simp only [List.cons_append, insertGrouped, hk, if_false, List.append_eq]
    rw [ih (fun hm => h (by simp [gkeys] at hm ⊢; tauto))]

theorem gkeys_insertGrouped (acc : List (List Char × List (List Char)))
    (k v : List Char) :
    gkeys (insertGrouped acc k v)
      = if k ∈ gkeys acc then gkeys acc else gkeys acc ++ [k] := by
  induction acc with
  | nil => simp [insertGrouped, gkeys]
  | cons p rest ih =>
    obtain ⟨k', g⟩ := p
    by_cases hk : k' = k
    · subst hk
      simp [insertGrouped, gkeys]
    · simp only [insertGrouped, hk, if_false]
      simp only [gkeys, List.map_cons] at ih ⊢
      rw [ih]
      by_cases hm : k ∈ List.map Prod.fst rest
      · rw [if_pos hm, if_pos (by simp [hm])]
      · rw [if_neg hm, if_neg ?_]
        · simp
        · intro hmem
          rcases List.mem_cons.mp hmem with he | hmem'
          · exact hk he.symm
          · exact hm hmem'

theorem insertGrouped_mem (acc : List (List Char × List (List Char)))
    (k v : List Char) :
    ∀ q ∈ insertGrouped acc k v,
      q ∈ acc ∨ q = (k, [v]) ∨ ∃ g, (k, g) ∈ acc ∧ q = (k, g ++ [v]) := by
  induction acc with
  | nil =>
    intro q hq
    simp [insertGrouped] at hq
    exact Or.inr (Or.inl hq)
  | cons p rest ih =>
    obtain ⟨k', g⟩ := p
    intro q hq
    by_cases hk : k' = k
    · subst hk
      simp only [insertGrouped, if_pos rfl] at hq
      rcases List.mem_cons.mp hq with he | hm
      · exact Or.inr (Or.inr ⟨g, by simp, he⟩)
      · exact Or.inl (by simp [hm])
    · simp only [insertGrouped, hk, if_false] at hq
      rcases List.mem_cons.mp hq with he | hm
      · exact Or.inl (by simp [he])
      · rcases ih q hm with h1 | h2 | ⟨g', hg', he⟩
        · exact Or.inl (by simp [h1])
        · exact Or.inr (Or.inl h2)
        · exact Or.inr (Or.inr ⟨g', by simp [hg'], he⟩)

theorem groupFold_good (inv : List (List Char)) :
    ∀ acc, (gkeys acc).Nodup → (∀ p ∈ acc, goodBlock p) →
      (gkeys (inv.foldl (fun a d => insertGrouped a (extract_base_name d) d)
        acc)).Nodup ∧
      ∀ p ∈ inv.foldl (fun a d => insertGrouped a (extract_base_name d) d) acc,
        goodBlock p := by
  induction inv with
  | nil => intro acc h1 h2; exact ⟨h1, h2⟩
  | cons d ds ih =>
    intro acc h1 h2
    simp only [List.foldl_cons]
    apply ih
    · rw [gkeys_insertGrouped]
      by_cases hm : extract_base_name d ∈ gkeys acc
      · rw [if_pos hm]
        exact h1
      · rw [if_neg hm, List.nodup_append]
        refine ⟨h1, List.nodup_singleton _, ?_⟩
        intro a ha hb
        simp at hb
        subst hb
        exact hm ha
    · intro p hp
      rcases insertGrouped_mem acc (extract_base_name d) d p hp
        with h | h | ⟨g, hg, he⟩
      · exact h2 p h
      · subst h
        refine ⟨by simp, ?_⟩
        intro x hx
        simp at hx
        subst hx
        rfl
      · subst he
        refine ⟨by simp, ?_⟩
        intro x hx
        rcases List.mem_append.mp hx with hx' | hx'
        · exact (h2 (extract_base_name d, g) hg).2 x hx'
        · simp at hx'
          subst hx'
          rfl

theorem foldl_insert_block :
    ∀ (g2 : List (List Char)) (acc : List (List Char × List (List Char)))
      (b : List Char) (g1 : List (List Char)),
      ¬ b ∈ gkeys acc → (∀ d ∈ g2, extract_base_name d = b) →
      List.foldl (fun a d => insertGrouped a (extract_base_name d) d)
          (acc ++ [(b, g1)]) g2
        = acc ++ [(b, g1 ++ g2)] := by
  intro g2
  induction g2 with
  | nil =>
    intro acc b g1 h1 h2
    simp
  | cons d g2' ih =>
    intro acc b g1 h1 h2
    simp only [List.foldl_cons]
    rw [h2 d (by simp), insertGrouped_last acc b d g1 h1,
      ih acc b (g1 ++ [d]) h1 (fun x hx => h2 x (by simp [hx]))]
    simp

theorem groupFold_blocks :
    ∀ (blocks : List (List Char × List (List Char)))
      (acc : List (List Char × List (List Char))),
      (∀ p ∈ blocks, goodBlock p) →
      (gkeys acc ++ gkeys blocks).Nodup →
      List.foldl (fun a d => insertGrouped a (extract_base_name d) d) acc
          ((blocks.map Prod.snd).flatten)
        = acc ++ blocks := by
  intro blocks
  induction blocks with
  | nil =>
    intro acc h1 h2
    simp
  | cons p bs ih =>
    obtain ⟨b, g⟩ := p
    intro acc h1 h2
    simp only [List.map_cons, List.flatten_cons]
    rw [List.foldl_append]
    obtain ⟨hne, hhom⟩ := h1 (b, g) (by simp)
    have hbacc : ¬ b ∈ gkeys acc := by
      intro hb
      rw [List.nodup_append] at h2
      exact h2.2.2 hb (by simp [gkeys])
    have hfold1 : List.foldl (fun a d => insertGrouped a (extract_base_name d) d)
        acc g = acc ++ [(b, g)] := by
      cases g with
      | nil => exact absurd rfl hne
      | cons d g' =>
        simp only [List.foldl_cons]
        rw [hhom d (by simp), insertGrouped_not_mem acc b d hbacc,
          foldl_insert_block g' acc b [d] hbacc
            (fun x hx => hhom x (by simp [hx]))]
        simp
    rw [hfold1]
    have hnodup2 : (gkeys (acc ++ [(b, g)]) ++ gkeys bs).Nodup := by
      have hg : gkeys (acc ++ [(b, g)]) = gkeys acc ++ [b] := by simp [gkeys]
      rw [hg, List.append_assoc]
      have hsh : gkeys ((b, g) :: bs) = b :: gkeys bs := by simp [gkeys]
      rw [hsh] at h2
      simpa using h2
    rw [ih (acc ++ [(b, g)]) (fun q hq => h1 q (by simp [hq])) hnodup2]
    simp

theorem keptNames_append (a b : List (List Char × ExtAction)) :
    keptNames (a ++ b) = keptNames a ++ keptNames b := by
  simp [keptNames, List.filter_append]

theorem keptNames_map (g : List (List Char)) (f : List Char → ExtAction) :
    keptNames (g.map (fun d => (d, f d)))
      = g.filter (fun d => decide (f d = ExtAction.Keep)) := by
  induction g with
  | nil => rfl
  | cons d g' ih =>
    simp only [List.map_cons, keptNames, List.filter_cons] at ih ⊢
    by_cases h : f d = ExtAction.Keep <;> simp [h, ih]

theorem decideGroup_kept (kl : List (List Char)) (ka : Bool) (b : List Char)
    (g : List (List Char)) (dsg : List (List Char × ExtAction))
    (h : decideGroup kl ka b g = some dsg) :
    keptNames dsg = survivorsG kl ka b g := by
  unfold decideGroup at h
  unfold survivorsG
  by_cases hk : kl.contains b = true
  · rw [if_pos hk] at h ⊢
    cases ka with
    | true =>
      simp only [if_true] at h ⊢
      have hds : dsg = g.map (fun d => (d, ExtAction.Keep)) := by
        injection h with h2
        exact h2.symm
      subst hds
      rw [keptNames_map]
      simp
    | false =>
      simp only [Bool.false_eq_true, if_false] at h ⊢
      cases hfl : find_latest_version g with
      | none =>
        rw [hfl] at h
        cases h
      | some L =>
        rw [hfl] at h
        have hds : dsg = g.map (fun d =>
            (d, if d = L then ExtAction.Keep else ExtAction.RemoveOldVersion)) := by
          injection h with h2
          exact h2.symm
        subst hds
        rw [keptNames_map, List.filter_congr]
        intro x hx
        by_cases hxL : x = L
        · simp [hxL]
        · simp [hxL]
  · rw [if_neg hk] at h ⊢
    have hds : dsg = g.map (fun d => (d, ExtAction.RemoveUnwanted)) := by
      injection h with h2
      exact h2.symm
    subst hds
    rw [keptNames_map]
    simp

theorem decideAll_kept (kl : List (List Char)) (ka : Bool) :
    ∀ (gs : List (List Char × List (List Char)))
      (ds : List (List Char × ExtAction)),
      decideAll kl ka gs = some ds →
      keptNames ds
        = (gs.map (fun p => survivorsG kl ka p.1 p.2)).flatten := by
  intro gs
  induction gs with
  | nil =>
    intro ds h
    injection h with h2
    subst h2
    rfl
  | cons g gs' ih =>
    intro ds h
    simp only [decideAll] at h
    cases h1 : decideGroup kl ka g.1 g.2 with
    | none =>
      rw [h1] at h
      cases h
    | some d1 =>
      cases h2 : decideAll kl ka gs' with
      | none =>
        rw [h1, h2] at h
        cases h
      | some rest =>
        rw [h1, h2] at h
        injection h with h3
        subst h3
        rw [keptNames_append, decideGroup_kept kl ka g.1 g.2 d1 h1, ih rest h2]
        simp

theorem survivorsG_subset (kl : List (List Char)) (ka : Bool) (b : List Char)
    (g : List (List Char)) : ∀ d ∈ survivorsG kl ka b g, d ∈ g := by
  intro d hd
  unfold survivorsG at hd
  by_cases hk : kl.contains b = true
  · rw [if_pos hk] at hd
    cases ka with
    | true => simpa using hd
    | false =>
      simp only [Bool.false_eq_true, if_false] at hd
      cases hfl : find_latest_version g with
      | none =>
        rw [hfl] at hd
        simp at hd
      | some L =>
        rw [hfl] at hd
        exact (List.mem_filter.mp hd).1
  · rw [if_neg hk] at hd
    simp at hd

theorem sblocks_cons (kl : List (List Char)) (ka : Bool)
    (p : List Char × List (List Char))
    (gs : List (List Char × List (List Char))) :
    sblocks kl ka (p :: gs)
      = if survivorsG kl ka p.1 p.2 = [] then sblocks kl ka gs
        else (p.1, survivorsG kl ka p.1 p.2) :: sblocks kl ka gs := by
  simp only [sblocks, List.filterMap_cons]
  by_cases hs : survivorsG kl ka p.1 p.2 = []
  · rw [if_pos hs, if_pos hs]
  · rw [if_neg hs, if_neg hs]

theorem join_sblocks (kl : List (List Char)) (ka : Bool) :
    ∀ gs, ((sblocks kl ka gs).map Prod.snd).flatten
      = (gs.map (fun p => survivorsG kl ka p.1 p.2)).flatten := by
  intro gs
  induction gs with
  | nil => rfl
  | cons p gs' ih =>
    rw [sblocks_cons]
    by_cases hs : survivorsG kl ka p.1 p.2 = []
    · rw [if_pos hs]
      simp only [List.map_cons, List.flatten_cons, hs, List.nil_append]
      exact ih
    · rw [if_neg hs]
      simp only [List.map_cons, List.flatten_cons]
      rw [ih]

theorem sblocks_keys_sublist (kl : List (List Char)) (ka : Bool) :
    ∀ gs, (gkeys (sblocks kl ka gs)).Sublist (gkeys gs) := by
  intro gs
  induction gs with
  | nil => simp [sblocks, gkeys]
  | cons p gs' ih =>
    rw [sblocks_cons]
    by_cases hs : survivorsG kl ka p.1 p.2 = []
    · rw [if_pos hs]
      exact ih.cons p.1
    · rw [if_neg hs]
      simp only [gkeys, List.map_cons]
      exact ih.cons₂ p.1

theorem sblocks_good (kl : List (List Char)) (ka : Bool)
    (gs : List (List Char × List (List Char)))
    (hgood : ∀ p ∈ gs, goodBlock p) :
    ∀ q ∈ sblocks kl ka gs, goodBlock q := by
  intro q hq
  simp only [sblocks, List.mem_filterMap] at hq
  obtain ⟨p, hp, hf⟩ := hq
  by_cases hs : survivorsG kl ka p.1 p.2 = []
  · rw [if_pos hs] at hf
    cases hf
  · rw [if_neg hs] at hf
    injection hf with hf2
    subst hf2
    refine ⟨hs, ?_⟩
    intro d hd
    exact (hgood p hp).2 d (survivorsG_subset kl ka p.1 p.2 d hd)

theorem flv_loop_cons (d : List Char) (rs : List (List Char))
    (latest lv v a : List Char) (he : extract_version_info d = some (v, a)) :
    flv_loop (d :: rs) latest lv =
      if compare_versions v lv > 0 then flv_loop rs d v
      else if compare_versions v lv = 0 ∧ latest.length < d.length then
        flv_loop rs d v
      else flv_loop rs latest lv := by
  simp only [flv_loop, he]

theorem flv_loop_none (d : List Char) (rs : List (List Char))
    (latest lv : List Char) (he : extract_version_info d = none) :
    flv_loop (d :: rs) latest lv = none := by
  simp only [flv_loop, he]

theorem flv_loop_isSome_all :
    ∀ (rest : List (List Char)) (latest lv L : List Char),
      flv_loop rest latest lv = some L →
      ∀ x ∈ rest, (extract_version_info x).isSome = true := by
  intro rest
  induction rest with
  | nil =>
    intro latest lv L h x hx
    simp at hx
  | cons d rs ih =>
    intro latest lv L h x hx
    cases he : extract_version_info d with
    | none =>
      rw [flv_loop_none d rs latest lv he] at h
      cases h
    | some va =>
      obtain ⟨v, a⟩ := va
      rw [flv_loop_cons d rs latest lv v a he] at h
      rcases List.mem_cons.mp hx with rfl | hx'
      · simp [he]
      · split at h
        · exact ih d v L h x hx'
        · split at h
          · exact ih d v L h x hx'
          · exact ih latest lv L h x hx'

theorem flv_loop_mem :
    ∀ (rest : List (List Char)) (latest lv L : List Char),
      flv_loop rest latest lv = some L → L = latest ∨ L ∈ rest := by
  intro rest
  induction rest with
  | nil =>
    intro latest lv L h
    injection h with h2
    exact Or.inl h2.symm
  | cons d rs ih =>
    intro latest lv L h
    cases he : extract_version_info d with
    | none =>
      rw [flv_loop_none d rs latest lv he] at h
      cases h
    | some va =>
      obtain ⟨v, a⟩ := va
      rw [flv_loop_cons d rs latest lv v a he] at h
      split at h
      · rcases ih d v L h with h1 | h1
        · exact Or.inr (by simp [h1])
        · exact Or.inr (by simp [h1])
      · split at h
        · rcases ih d v L h with h1 | h1
          · exact Or.inr (by simp [h1])
          · exact Or.inr (by simp [h1])
        · rcases ih latest lv L h with h1 | h1
          · exact Or.inl h1
          · exact Or.inr (by simp [h1])

theorem flv_loop_copies :
    ∀ (rs : List (List Char)) (L v a : List Char),
      (∀ x ∈ rs, x = L) → extract_version_info L = some (v, a) →
      flv_loop rs L v = some L := by
  intro rs
  induction rs with
  | nil =>
    intro L v a h he
    rfl
  | cons x rs' ih =>
    intro L v a h he
    have hx : x = L := h x (by simp)
    subst hx
    rw [flv_loop_cons x rs' x v v a he]
    have hc0 : compare_versions v v = 0 := compare_versions_refl v
    rw [if_neg (by simp [hc0]), if_neg (by simp [hc0])]
    exact ih x v a (fun y hy => h y (by simp [hy])) he

theorem find_latest_mem (g : List (List Char)) (L : List Char)
    (h : find_latest_version g = some L) : L ∈ g := by
  cases g with
  | nil => cases h
  | cons d rest =>
    cases rest with
    | nil =>
      injection h with h2
      simp [h2]
    | cons e rest' =>
      simp only [find_latest_version] at h
      cases he : extract_version_info d with
      | none =>
        rw [he] at h
        cases h
      | some va =>
        obtain ⟨v, a⟩ := va
        rw [he] at h
        rcases flv_loop_mem _ _ _ _ h with h1 | h1
        · simp [h1]
        · simp [h1]

theorem find_latest_evi_all (d e : List Char) (rest : List (List Char))
    (L : List Char) (h : find_latest_version (d :: e :: rest) = some L) :
    ∀ x ∈ d :: e :: rest, (extract_version_info x).isSome = true := by
  simp only [find_latest_version] at h
  cases he : extract_version_info d with
  | none =>
    rw [he] at h
    cases h
  | some va =>
    obtain ⟨v, a⟩ := va
    rw [he] at h
    intro x hx
    rcases List.mem_cons.mp hx with rfl | hx'
    · simp [he]
    · exact flv_loop_isSome_all _ _ _ _ h x hx'

theorem mem_filter_eq {L : List Char} {g : List (List Char)} :
    ∀ x ∈ g.filter (fun d => decide (d = L)), x = L := by
  intro x hx
  have h2 := List.mem_filter.mp hx
  simpa using h2.2

theorem rerun_group_keep (kl : List (List Char)) (ka : Bool) (b : List Char)
    (g : List (List Char)) (dsg : List (List Char × ExtAction))
    (hdec : decideGroup kl ka b g = some dsg)
    (hne : survivorsG kl ka b g ≠ []) :
    decideGroup kl ka b (survivorsG kl ka b g)
      = some ((survivorsG kl ka b g).map (fun d => (d, ExtAction.Keep))) := by
  by_cases hk : kl.contains b = true
  · cases ka with
    | true =>
      have hs : survivorsG kl true b g = g := by
        unfold survivorsG
        rw [if_pos hk, if_pos rfl]
      rw [hs]
      unfold decideGroup
      rw [if_pos hk, if_pos rfl]
    | false =>
      have hL : ∃ L, find_latest_version g = some L := by
        unfold decideGroup at hdec
        rw [if_pos hk, if_neg (by simp)] at hdec
        cases hfl : find_latest_version g with
        | none =>
          rw [hfl] at hdec
          cases hdec
        | some L => exact ⟨L, rfl⟩
      obtain ⟨L, hfl⟩ := hL
      have hs : survivorsG kl false b g
          = g.filter (fun d => decide (d = L)) := by
        unfold survivorsG
        rw [if_pos hk, if_neg (by simp), hfl]
      rw [hs] at hne ⊢
      cases hflt : g.filter (fun d => decide (d = L)) with
      | nil => exact absurd hflt hne
      | cons x rest =>
        have hxL : x = L := mem_filter_eq (x := x) (by rw [hflt]; simp)
        cases rest with
        | nil =>
          subst hxL
          exact decideGroup_singleton kl false b x hk
        | cons y rest' =>
          have hall : ∀ z ∈ x :: y :: rest', z = L := by
            intro z hz
            apply mem_filter_eq (L := L) (g := g)
            rw [hflt]
            exact hz
          have hg2 : ∃ d0 e0 grest, g = d0 :: e0 :: grest := by
            cases g with
            | nil => simp at hflt
            | cons d0 grest =>
              cases grest with
              | nil =>
                exfalso
                have hlen := congrArg List.length hflt
                by_cases hp : decide (d0 = L) = true
                · simp [List.filter_cons, hp] at hlen
                · simp [List.filter_cons, hp] at hlen
              | cons e0 grest' => exact ⟨d0, e0, grest', rfl⟩
          obtain ⟨d0, e0, grest, hgeq⟩ := hg2
          have hevi : ∀ z ∈ g, (extract_version_info z).isSome = true := by
            rw [hgeq] at hfl ⊢
            exact find_latest_evi_all d0 e0 grest L hfl
          have hLg : L ∈ g := find_latest_mem g L hfl
          obtain ⟨v, a, hva⟩ := evi_isSome_exists (hevi L hLg)
          subst hxL
          unfold decideGroup
          rw [if_pos hk, if_neg (by simp)]
          have hfl2 : find_latest_version (x :: y :: rest') = some x := by
            simp only [find_latest_version, hva]
            exact flv_loop_copies (y :: rest') x v a
              (fun z hz => hall z (by simp [hz])) hva
          rw [hfl2]
          have hmap : (x :: y :: rest').map (fun d =>
              (d, if d = x then ExtAction.Keep else ExtAction.RemoveOldVersion))
              = (x :: y :: rest').map (fun d => (d, ExtAction.Keep)) := by
            apply List.map_congr_left
            intro z hz
            rw [hall z hz]
            simp
          rw [← hmap]
  · exfalso
    apply hne
    unfold survivorsG
    rw [if_neg hk]

theorem decideAll_sblocks (kl : List (List Char)) (ka : Bool) :
    ∀ (gs : List (List Char × List (List Char)))
      (ds : List (List Char × ExtAction)),
      decideAll kl ka gs = some ds →
      ∃ ds2, decideAll kl ka (sblocks kl ka gs) = some ds2 ∧
        ∀ q ∈ ds2, q.2 = ExtAction.Keep := by
  intro gs
  induction gs with
  | nil =>
    intro ds h
    exact ⟨[], rfl, by simp⟩
  | cons p gs' ih =>
    intro ds h
    simp only [decideAll] at h
    cases h1 : decideGroup kl ka p.1 p.2 with
    | none =>
      rw [h1] at h
      cases h
    | some d1 =>
      cases h2 : decideAll kl ka gs' with
      | none =>
        rw [h1, h2] at h
        cases h
      | some rest =>
        obtain ⟨ds2', hds2', hkeep'⟩ := ih rest h2
        rw [sblocks_cons]
        by_cases hs : survivorsG kl ka p.1 p.2 = []
        · rw [if_pos hs]
          exact ⟨ds2', hds2', hkeep'⟩
        · rw [if_neg hs]
          refine ⟨(survivorsG kl ka p.1 p.2).map (fun d => (d, ExtAction.Keep))
            ++ ds2', ?_, ?_⟩
          · simp only [decideAll]
            rw [rerun_group_keep kl ka p.1 p.2 d1 h1 hs, hds2']
          · intro q hq
            rcases List.mem_append.mp hq with hq' | hq'
            · obtain ⟨d, hd, he⟩ := List.mem_map.mp hq'
              rw [← he]
            · exact hkeep' q hq'

theorem removalPhase_spec (oracle : List Char → Bool) :
    ∀ toRemove : List (List Char),
      (removalPhase oracle toRemove).1
          = toRemove.map (fun d => (d, oracle d)) ∧
      (removalPhase oracle toRemove).2.1 = toRemove.countP oracle ∧
      (removalPhase oracle toRemove).2.2
          = toRemove.countP (fun d => !oracle d) := by
  intro toRemove
  induction toRemove with
  | nil => exact ⟨rfl, rfl, rfl⟩
  | cons d ds ih =>
    obtain ⟨h1, h2, h3⟩ := ih
    by_cases ho : oracle d = true
    · refine ⟨?_, ?_, ?_⟩
      · simp [removalPhase, ho, h1]
      · simp [removalPhase, ho, h2, List.countP_cons]
      · simp [removalPhase, ho, h3, List.countP_cons]
    · refine ⟨?_, ?_, ?_⟩
      · simp [removalPhase, ho, h1]
      · simp [removalPhase, ho, h2, List.countP_cons]
      · simp [removalPhase, ho, h3, List.countP_cons]

/-- C8: For every inventory, keep set and flag setting, if a run produces
decisions `ds` and every decided removal is applied (so exactly the `Keep`
entries survive), re-running the Reconciler on the post-removal inventory
produces decisions that are all `Keep` — zero removal decisions. -/
theorem claim_C8 :
    ∀ (inv keepList : List (List Char)) (keepAll : Bool)
      (ds : List (List Char × ExtAction)),
      reconcile inv keepList keepAll = some ds →
      ∃ ds2, reconcile (keptNames ds) keepList keepAll = some ds2 ∧
        ∀ q ∈ ds2, q.2 = ExtAction.Keep := by
  intro inv kl ka ds h
  have hgood := groupFold_good inv [] (by simp [gkeys]) (by simp)
  have hall : decideAll kl ka (group_extensions_by_base_name inv) = some ds := h
  have hkept : keptNames ds
      = ((sblocks kl ka (group_extensions_by_base_name inv)).map
          Prod.snd).flatten := by
    rw [decideAll_kept kl ka _ ds hall, join_sblocks]
  have hnodup : (gkeys ([] : List (List Char × List (List Char)))
      ++ gkeys (sblocks kl ka (group_extensions_by_base_name inv))).Nodup := by
    simp only [gkeys, List.map_nil, List.nil_append]
    exact List.Nodup.sublist
      (sblocks_keys_sublist kl ka (group_extensions_by_base_name inv)) hgood.1
  have hgf : group_extensions_by_base_name (keptNames ds)
      = sblocks kl ka (group_extensions_by_base_name inv) := by
    rw [hkept]
    have hb := groupFold_blocks
      (sblocks kl ka (group_extensions_by_base_name inv)) []
      (sblocks_good kl ka _ hgood.2) hnodup
    simpa using hb
  obtain ⟨ds2, hds2, hkeep⟩ :=
    decideAll_sblocks kl ka (group_extensions_by_base_name inv) ds hall
  refine ⟨ds2, ?_, hkeep⟩
  show decideAll kl ka (group_extensions_by_base_name (keptNames ds)) = some ds2
  rw [hgf]
  exact hds2

/-- C1 (amended): On every raw name where `extract_version_info` does not
raise (its remainder does not end in `'-'`), `decode` behaves exactly as
the claim describes, captured by `spec_decode`; in particular
`decode("ms-python.python-2021.5.842923320")` yields base name
`ms-python.python` and version `2021.5.842923320`. -/
theorem claim_C1 :
    (∀ s : List Char, (extract_version_info s).isSome = true →
      decode s = some (spec_decode s)) ∧
    decode (chars "ms-python.python-2021.5.842923320")
      = some ⟨chars "ms-python.python-2021.5.842923320",
          chars "ms-python.python", chars "2021.5.842923320", []⟩ :=
  ⟨fun s h => decode_eq_spec s h, by decide⟩

/-- C1 counterexample: the claim prescribes version `"1"`, arch `""` for
the raw name `"a-1-"`, but the code raises IndexError
(`parts[-1][0]` on the empty last segment), so `decode` returns nothing. -/
theorem claim_C1_counterexample :
    decode (chars "a-1-") = none ∧
    (spec_decode (chars "a-1-")).version = chars "1" ∧
    (spec_decode (chars "a-1-")).arch = [] := by decide

/-- C1 witness: the amended claim applied at a concrete decodable name. -/
theorem claim_C1_witness :
    (extract_version_info (chars "esbenp.prettier-vscode-5.9.3")).isSome
        = true ∧
    decode (chars "esbenp.prettier-vscode-5.9.3")
      = some (spec_decode (chars "esbenp.prettier-vscode-5.9.3")) :=
  ⟨by decide, claim_C1.1 (chars "esbenp.prettier-vscode-5.9.3") (by decide)⟩

/-- C2 (code bug): decoding is not total — on `"a.b-1.0-"` the remainder
`"1.0-"` splits with an empty last segment and `parts[-1][0]` raises
IndexError, so `decode` fails instead of degrading gracefully. -/
theorem claim_C2 :
    decode (chars "a.b-1.0-") = none ∧
    extract_version_info (chars "a.b-1.0-") = none := by decide

/-- C3: `compare_versions` agrees with the specification's description
(`spec_compare`: pad with `"0"`, return the sign at the first differing
position, numeric when both segments parse, lexical otherwise), and the
two quoted examples hold. -/
theorem claim_C3 :
    (∀ a b : List Char, compare_versions a b = spec_compare a b) ∧
    compare_versions (chars "1.2.3") (chars "1.2.10") = -1 ∧
    compare_versions (chars "1.2") (chars "1.2.0") = 0 :=
  ⟨compare_versions_eq_spec, by decide, by decide⟩

/-- C4: for every group of decodable entries whose base name is in the
keep set, with `keepAllVersions` false, the selected entry is the one
found by the specification's left-to-right scan (`specLatest`: replace on
strictly-greater compare, or on a tie with a strictly longer raw name);
it is decided `Keep` and every other entry `RemoveOldVersion`, whose
reason string is `"old version"`. -/
theorem claim_C4 :
    ∀ (keepList : List (List Char)) (base : List Char)
      (g : List (List Char)),
      keepList.contains base = true → g ≠ [] →
      (∀ d ∈ g, (extract_version_info d).isSome = true) →
      decideGroup keepList false base g
        = some (g.map (fun d =>
            (d, if d = specLatest g then ExtAction.Keep
                else ExtAction.RemoveOldVersion))) ∧
      reasonOf ExtAction.RemoveOldVersion = chars "old version" := by
  intro keepList base g hk hne hd
  exact ⟨decideGroup_keep_latest keepList base g hk hne hd, by decide⟩

/-- C4 witness: the scan applied to a concrete two-version group. -/
theorem claim_C4_witness :
    ([chars "a.b"].contains (chars "a.b") = true) ∧
    ([chars "a.b-1.0.0", chars "a.b-1.2.0"] ≠ ([] : List (List Char))) ∧
    (∀ d ∈ [chars "a.b-1.0.0", chars "a.b-1.2.0"],
      (extract_version_info d).isSome = true) ∧
    decideGroup [chars "a.b"] false (chars "a.b")
        [chars "a.b-1.0.0", chars "a.b-1.2.0"]
      = some [(chars "a.b-1.0.0", ExtAction.RemoveOldVersion),
              (chars "a.b-1.2.0", ExtAction.Keep)] := by
  refine ⟨by decide, by decide, by decide, ?_⟩
  have h := (claim_C4 [chars "a.b"] (chars "a.b")
    [chars "a.b-1.0.0", chars "a.b-1.2.0"] (by decide) (by decide)
    (by decide)).1
  rw [h]
  decide

/-- C5: the end-to-end example — inventory `a.b-1.0.0`, `a.b-1.2.0`,
`c.d-1.0.0` with keep set `{a.b}` and `keepAllVersions` false — decides
`a.b-1.2.0` Keep, `a.b-1.0.0` RemoveOldVersion, `c.d-1.0.0`
RemoveUnwanted, with the code's reason strings. -/
theorem claim_C5 :
    reconcile [chars "a.b-1.0.0", chars "a.b-1.2.0", chars "c.d-1.0.0"]
        [chars "a.b"] false
      = some [(chars "a.b-1.0.0", ExtAction.RemoveOldVersion),
              (chars "a.b-1.2.0", ExtAction.Keep),
              (chars "c.d-1.0.0", ExtAction.RemoveUnwanted)] ∧
    reasonOf ExtAction.RemoveUnwanted = chars "not in keep list" ∧
    reasonOf ExtAction.RemoveOldVersion = chars "old version" := by decide

/-- C6 counterexample: the base name can be empty — decoding `"-1"` gives
`baseName = ""`, refuting the claim that it is never empty. -/
theorem claim_C6_counterexample :
    (decode (chars "-1")).map Entry.baseName = some [] := by decide

/-- C6 (amended): for every nonempty raw name not beginning with `'-'`,
the extracted base name is nonempty; and whenever no segment after the
first begins with a digit (no decodable suffix), the base name falls back
to the full raw name. -/
theorem claim_C6 :
    ∀ s : List Char,
      (s ≠ [] → s.head? ≠ some '-' → extract_base_name s ≠ []) ∧
      ((splitOnChar '-' s).tail.all (fun p => !startsWithDigit p) = true →
        extract_base_name s = s) :=
  fun s => ⟨fun h1 h2 => extract_base_name_ne_nil s h1 h2,
    fun h => extract_base_name_full s h⟩

/-- C6 witness: the amended claim applied at a concrete raw name. -/
theorem claim_C6_witness :
    (chars "a.b" ≠ [] ∧ (chars "a.b").head? ≠ some '-' ∧
      extract_base_name (chars "a.b") ≠ []) ∧
    ((splitOnChar '-' (chars "a.b")).tail.all
        (fun p => !startsWithDigit p) = true ∧
      extract_base_name (chars "a.b") = chars "a.b") :=
  ⟨⟨by decide, by decide, (claim_C6 (chars "a.b")).1 (by decide) (by decide)⟩,
   ⟨by decide, (claim_C6 (chars "a.b")).2 (by decide)⟩⟩

/-- C7 counterexample: a single-entry group whose base name is NOT in the
keep set resolves to RemoveUnwanted, not Keep, refuting the unconditional
claim. -/
theorem claim_C7_counterexample :
    reconcile [chars "c.d-1.0.0"] [] false
      = some [(chars "c.d-1.0.0", ExtAction.RemoveUnwanted)] := by decide

/-- C7 (amended): every single-entry group whose base name is in the keep
set resolves to Keep, for either value of `keepAllVersions`, with no
version comparison or decoding performed — the entry `d` is arbitrary,
including undecodable names. -/
theorem claim_C7 :
    ∀ (keepList : List (List Char)) (keepAll : Bool) (base d : List Char),
      keepList.contains base = true →
      decideGroup keepList keepAll base [d] = some [(d, ExtAction.Keep)] :=
  fun kl ka b d hk => decideGroup_singleton kl ka b d hk

/-- C7 witness: a kept singleton group resolves to Keep even though its
name (`a.b-1-`) would crash the decoder — no comparison happens. -/
theorem claim_C7_witness :
    ([chars "a.b"].contains (chars "a.b") = true) ∧
    decideGroup [chars "a.b"] false (chars "a.b") [chars "a.b-1-"]
      = some [(chars "a.b-1-", ExtAction.Keep)] :=
  ⟨by decide,
    claim_C7 [chars "a.b"] false (chars "a.b") (chars "a.b-1-") (by decide)⟩

/-- C8 witness: idempotence at the concrete end-to-end example. -/
theorem claim_C8_witness :
    (reconcile [chars "a.b-1.0.0", chars "a.b-1.2.0", chars "c.d-1.0.0"]
        [chars "a.b"] false
      = some [(chars "a.b-1.0.0", ExtAction.RemoveOldVersion),
              (chars "a.b-1.2.0", ExtAction.Keep),
              (chars "c.d-1.0.0", ExtAction.RemoveUnwanted)]) ∧
    ∃ ds2, reconcile
        (keptNames [(chars "a.b-1.0.0", ExtAction.RemoveOldVersion),
              (chars "a.b-1.2.0", ExtAction.Keep),
              (chars "c.d-1.0.0", ExtAction.RemoveUnwanted)])
        [chars "a.b"] false
      = some ds2 ∧ ∀ q ∈ ds2, q.2 = ExtAction.Keep :=
  ⟨by decide,
    claim_C8 [chars "a.b-1.0.0", chars "a.b-1.2.0", chars "c.d-1.0.0"]
      [chars "a.b"] false
      [(chars "a.b-1.0.0", ExtAction.RemoveOldVersion),
       (chars "a.b-1.2.0", ExtAction.Keep),
       (chars "c.d-1.0.0", ExtAction.RemoveUnwanted)] (by decide)⟩

/-- C9: in every run, the removal phase attempts each decided removal
(unwanted batch then old-version batch) exactly once and in order, no
matter which attempts fail — the attempt trace is exactly the decided
list paired with each attempt's outcome — and the success and failure
counters count exactly the successful and failed attempts. -/
theorem claim_C9 :
    ∀ (inv keepList : List (List Char)) (keepAll : Bool)
      (ds : List (List Char × ExtAction)) (oracle : List Char → Bool),
      reconcile inv keepList keepAll = some ds →
      (removalPhase oracle (removalsOf ds)).1
          = (removalsOf ds).map (fun d => (d, oracle d)) ∧
      (removalPhase oracle (removalsOf ds)).2.1
          = (removalsOf ds).countP oracle ∧
      (removalPhase oracle (removalsOf ds)).2.2
          = (removalsOf ds).countP (fun d => !oracle d) := by
  intro inv kl ka ds oracle h
  exact removalPhase_spec oracle (removalsOf ds)

/-- C9 witness: the removal phase of the concrete run, with an oracle
that fails the unwanted removal; the old-version removal is still
attempted and the counters record one success and one failure. -/
theorem claim_C9_witness :
    (reconcile [chars "a.b-1.0.0", chars "a.b-1.2.0", chars "c.d-1.0.0"]
        [chars "a.b"] false
      = some [(chars "a.b-1.0.0", ExtAction.RemoveOldVersion),
              (chars "a.b-1.2.0", ExtAction.Keep),
              (chars "c.d-1.0.0", ExtAction.RemoveUnwanted)]) ∧
    (removalPhase (fun d => decide (d = chars "a.b-1.0.0"))
        (removalsOf [(chars "a.b-1.0.0", ExtAction.RemoveOldVersion),
              (chars "a.b-1.2.0", ExtAction.Keep),
              (chars "c.d-1.0.0", ExtAction.RemoveUnwanted)])).1
      = (removalsOf [(chars "a.b-1.0.0", ExtAction.RemoveOldVersion),
              (chars "a.b-1.2.0", ExtAction.Keep),
              (chars "c.d-1.0.0", ExtAction.RemoveUnwanted)]).map
          (fun d => (d, decide (d = chars "a.b-1.0.0"))) :=
  ⟨by decide,
    (claim_C9 [chars "a.b-1.0.0", chars "a.b-1.2.0", chars "c.d-1.0.0"]
      [chars "a.b"] false
      [(chars "a.b-1.0.0", ExtAction.RemoveOldVersion),
       (chars "a.b-1.2.0", ExtAction.Keep),
       (chars "c.d-1.0.0", ExtAction.RemoveUnwanted)]
      (fun d => decide (d = chars "a.b-1.0.0")) (by decide)).1⟩

/-- C10: the version comparison is antisymmetric
(`compare(a,b) = -compare(b,a)`) and reflexive (`compare(a,a) = 0`). -/
theorem claim_C10 :
    (∀ a b : List Char, compare_versions a b = - compare_versions b a) ∧
    (∀ a : List Char, compare_versions a a = 0) :=
  ⟨compare_versions_antisymm, compare_versions_refl⟩
